import Mathlib

/-!
Shallow embedding of the batch-translation pipeline of the ContextLingo
content script (src/entrypoints/content/index.tsx): the string helpers
the code relies on, the verification filter of applyTranslation, the
TranslationScheduler buffer and dispatch-queue logic, the text-node
annotator processTextNode, and the block-scanner tree walk.
-/

set_option linter.unusedVariables false

/-- Whitespace test modelling the JavaScript regular-expression class for
whitespace and the characters String.prototype.trim removes: space, tab,
newline, carriage return, vertical tab, form feed, no-break space and the
byte order mark. -/
def isSpaceJS (c : Char) : Bool :=
  c = ' ' || c = '\t' || c = '\n' || c = '\r' || c = '\x0b' || c = '\x0c' ||
  c = ' ' || c = '﻿'

/-- JavaScript String.prototype.trim, on the character list. -/
def jsTrimList (l : List Char) : List Char :=
  ((l.dropWhile isSpaceJS).reverse.dropWhile isSpaceJS).reverse

/-- JavaScript String.prototype.trim. -/
def jsTrim (s : String) : String :=
  String.mk (jsTrimList s.data)

/-- JavaScript String.prototype.toLowerCase, modelled per character. -/
def jsToLower (s : String) : String :=
  String.mk (s.data.map Char.toLower)

/-- The source-language test of the code: true when the string holds a
CJK unified ideograph between code points 4e00 and 9fa5. -/
def containsChinese (s : String) : Bool :=
  s.data.any (fun c => decide (0x4e00 ≤ c.toNat ∧ c.toNat ≤ 0x9fa5))

/-- Prefix test on character lists. -/
def isPrefixCh : List Char → List Char → Bool
  | [], _ => true
  | _ :: _, [] => false
  | a :: as, b :: bs => a == b && isPrefixCh as bs

/-- Substring-occurrence test on character lists: containsCh needle hay
is true when needle occurs contiguously inside hay, as in JavaScript
String.prototype.includes. -/
def containsCh (needle : List Char) : List Char → Bool
  | [] => needle.isEmpty
  | c :: rest => isPrefixCh needle (c :: rest) || containsCh needle rest

/-- JavaScript hay.includes needle. -/
def includesJS (hay needle : String) : Bool :=
  containsCh needle.data hay.data

/-- Contiguous-occurrence proposition used to state theorems about
includesJS. -/
def occursIn (needle hay : List Char) : Prop :=
  ∃ a b, hay = a ++ needle ++ b

/-- The fields of the stored WordEntry record (src/types.ts) that the
verification filter reads: text is the target-language spelling,
translation the source-language gloss, inflections the optional
morphological surface forms. -/
structure WordEntry where
  id : String
  text : String
  translation : Option String
  inflections : Option (List String)
  deriving Repr, DecidableEq

/-- The verification filter of TranslationScheduler.applyTranslation:
an entry passes when the lower-cased translated text contains the
entry's lower-cased spelling; otherwise, when matchInflections is set
and the entry carries an inflection list, when the translated text
contains one of the lower-cased inflections. -/
def verifies (matchInflections : Bool) (translatedText : String) (e : WordEntry) : Bool :=
  let text := jsToLower e.text
  let targetLower := jsToLower translatedText
  if includesJS targetLower text then true
  else if matchInflections then
    match e.inflections with
    | some infls => infls.any (fun infl => includesJS targetLower (jsToLower infl))
    | none => false
  else false

namespace TranslationScheduler

/-- Max blocks per request of the scheduler. -/
def maxBatchSize : Nat := 30

/-- Max characters per request of the scheduler. -/
def maxCharCount : Nat := 3000

/-- Milliseconds the loop waits between requests. -/
def rateLimitDelay : Nat := 350

/-- The debounce wait of scheduleFlush in milliseconds. -/
def debounceDelay : Nat := 150

/-- The join sequence between block texts: newline, three bars, newline. -/
def delimiter : String := "\n|||\n"

/-- One buffered block: the identity of the DOM element and the trimmed
source text captured at add time. -/
structure Item where
  blockId : Nat
  sourceText : String
  deriving Repr, DecidableEq

/-- One entry of the request queue: the delimiter-joined text and the
items of the batch. -/
structure BatchReq where
  combinedText : String
  items : List Item
  deriving Repr, DecidableEq

/-- Buffer-side state of the scheduler: the pending buffer, the dispatch
queue, and the debounce timer stored as the absolute time at which it
fires. -/
structure SchedBuf where
  buffer : List Item
  requestQueue : List BatchReq
  timer : Option Nat
  deriving Repr, DecidableEq

/-- The character-total reduce of scheduleFlush. -/
def charSum (l : List Item) : Nat :=
  (l.map (fun it => it.sourceText.length)).sum

/-- The batch flushBufferToQueue builds: the source texts joined with the
delimiter, alongside the item snapshot. -/
def mkBatch (items : List Item) : BatchReq :=
  ⟨String.intercalate delimiter (items.map (fun it => it.sourceText)), items⟩

/-- flushBufferToQueue: unchanged when the buffer is empty; otherwise the
timer is cleared and the whole buffer drains into one batch appended to
the request queue. -/
def flushBufferToQueue (s : SchedBuf) : SchedBuf :=
  if s.buffer.isEmpty then s
  else ⟨[], s.requestQueue ++ [mkBatch s.buffer], none⟩

/-- scheduleFlush at absolute time now: flush when the buffer holds at
least maxBatchSize blocks or at least maxCharCount characters; otherwise
start the debounce timer only when none is pending (the code guards the
assignment with a test that the timer field is unset). -/
def scheduleFlush (now : Nat) (s : SchedBuf) : SchedBuf :=
  if maxBatchSize ≤ s.buffer.length ∨ maxCharCount ≤ charSum s.buffer then
    flushBufferToQueue ⟨s.buffer, s.requestQueue, none⟩
  else if s.timer = none then ⟨s.buffer, s.requestQueue, some (now + debounceDelay)⟩
  else s

/-- A block as add sees it: its element identity, its current scan
attribute and its innerText. -/
structure BlockView where
  blockId : Nat
  scanned : Option String
  innerText : String
  deriving Repr, DecidableEq

/-- add: reject blocks already carrying the scan attribute; trim the
innerText and reject empty, shorter-than-two or non-Chinese text;
otherwise append the item to the buffer and run scheduleFlush. The
attribute marking of accepted blocks is modelled in the scanner
embedding below. -/
def add (now : Nat) (b : BlockView) (s : SchedBuf) : SchedBuf :=
  if b.scanned.isSome then s
  else
    let t := jsTrim b.innerText
    if t.isEmpty ∨ t.length < 2 ∨ ¬ containsChinese t then s
    else scheduleFlush now ⟨s.buffer ++ [⟨b.blockId, t⟩], s.requestQueue, s.timer⟩

/-- Folding add over a list of discovered blocks, all at time now. -/
def addAll (now : Nat) (bs : List BlockView) (s : SchedBuf) : SchedBuf :=
  bs.foldl (fun st b => add now b st) s

/-- One translation engine as the dispatch loop reads it. -/
structure Engine where
  name : String
  isEnabled : Bool
  deriving Repr, DecidableEq

/-- Shape of the runtime response the loop reads: the success flag and
the optional TargetText payload. -/
structure JsResp where
  success : Bool
  targetText : Option String
  deriving Repr, DecidableEq

/-- Outcome of awaiting the message round trip: the promise either
resolves to a response or rejects into the catch branch. -/
inductive JsResult where
  | resolved : JsResp → JsResult
  | rejected : JsResult
  deriving Repr, DecidableEq

/-- The truthiness test of the success branch: success must be true and
the target text present and non-empty. -/
def respOk (r : JsResp) : Bool :=
  r.success && (match r.targetText with
    | some t => !t.isEmpty
    | none => false)

/-- Failure discriminator covering the rejected promise, the non-ok
response and the missing or empty target text. -/
def respFails (res : JsResult) : Bool :=
  match res with
  | .resolved r => !respOk r
  | .rejected => true

/-- Attempt to match the whitespace-tolerant delimiter pattern (any
whitespace, three bars, any whitespace) at the head of l; on success
return the remainder after the greedy match. -/
def delimMatch (l : List Char) : Option (List Char) :=
  match l.dropWhile isSpaceJS with
  | c1 :: c2 :: c3 :: rest =>
    if c1 = '|' ∧ c2 = '|' ∧ c3 = '|' then some (rest.dropWhile isSpaceJS) else none
  | _ => none

/-- Scanner for the split of the success branch: walk the characters,
cutting at every leftmost match of the whitespace-tolerant delimiter.
The fuel argument only bounds the recursion; every step consumes at
least one character, so a run started with the character count as fuel
never reaches the fuel-exhausted branch. -/
def splitJSAux : Nat → List Char → List Char → List String
  | _, [], acc => [String.mk acc.reverse]
  | 0, l, acc => [String.mk (acc.reverse ++ l)]
  | fuel + 1, c :: cs, acc =>
    match delimMatch (c :: cs) with
    | some rem => String.mk acc.reverse :: splitJSAux fuel rem []
    | none => splitJSAux fuel cs (c :: acc)

/-- The robust split of the success branch. -/
def splitJS (s : String) : List String :=
  splitJSAux s.data.length s.data []

/-- JavaScript or-else for a possibly missing part: an absent part
becomes the empty string. -/
def orEmpty : Option String → String
  | some t => t
  | none => ""

/-- The position-zipped application list of the success branch: for each
item index, the split part at that index or the empty string. -/
def appliedPairs (items : List Item) (fullTranslatedText : String) : List (Item × String) :=
  items.enum.map (fun p => (p.2, orEmpty ((splitJS fullTranslatedText).get? p.1)))

/-- Observable actions of the dispatch loop: applyTranslation calls and
error markings. -/
inductive Evt where
  | applyT : Nat → String → String → Evt
  | markError : Nat → Evt
  deriving Repr, DecidableEq

/-- Per-batch handling of the loop body: on a resolved response whose
success flag is set and whose target text is present and non-empty, the
split parts are zipped to the items by position and applied; on any
other outcome every block of the batch is marked error. -/
def handleBatch (respond : BatchReq → JsResult) (b : BatchReq) : List Evt :=
  match respond b with
  | .resolved r =>
    match r.targetText with
    | some t =>
      if r.success && !t.isEmpty then
        (appliedPairs b.items t).map (fun p => .applyT p.1.blockId p.1.sourceText p.2)
      else b.items.map (fun it => .markError it.blockId)
    | none => b.items.map (fun it => .markError it.blockId)
  | .rejected => b.items.map (fun it => .markError it.blockId)

/-- Result of one run of the processQueue while loop: the batches sent
with their request start times, the actions performed, and the queue as
left on exit. -/
structure LoopResult where
  sends : List (BatchReq × Nat)
  events : List Evt
  leftover : List BatchReq
  deriving Repr, DecidableEq

/-- The processQueue while loop: shift the next batch; abort when no
enabled engine exists (the shifted batch is dropped and the rest is left
queued); otherwise send at the current time, handle the response, wait
rateLimitDelay after the response resolves (dur gives each request's
duration) and continue. -/
def processQueue (engines : List Engine) (respond : BatchReq → JsResult)
    (dur : BatchReq → Nat) : List BatchReq → Nat → LoopResult
  | [], _ => ⟨[], [], []⟩
  | b :: rest, t =>
    match engines.find? (fun e => e.isEnabled) with
    | none => ⟨[], [], rest⟩
    | some _ =>
      let r := processQueue engines respond dur rest (t + dur b + rateLimitDelay)
      ⟨(b, t) :: r.sends, handleBatch respond b ++ r.events, r.leftover⟩

/-- Queue-side state: the request queue and the single-worker flag. -/
structure SchedState where
  requestQueue : List BatchReq
  isProcessingQueue : Bool
  deriving Repr, DecidableEq

/-- Entry into processQueue: the re-entrancy guard returns at once when a
worker is already running; otherwise the loop runs and the flag is
cleared on exit. -/
def processQueueEntry (engines : List Engine) (respond : BatchReq → JsResult)
    (dur : BatchReq → Nat) (st : SchedState) (t : Nat) : SchedState × LoopResult :=
  if st.isProcessingQueue then (st, ⟨[], [], []⟩)
  else
    let r := processQueue engines respond dur st.requestQueue t
    (⟨r.leftover, false⟩, r)

/-- The drain order of the loop when new batches arrive while requests
are in flight: arrivals gives, per iteration, the batches flushed onto
the queue during that iteration's await; the result is the send order.
When the queue empties the worker stops, and later flushes start a fresh
worker. -/
def runLoopA (hasEngine : Bool) : List (List BatchReq) → List BatchReq → List BatchReq
  | [], q => if hasEngine then q else []
  | _ :: _, [] => []
  | h :: tl, b :: rest => if hasEngine then b :: runLoopA hasEngine tl (rest ++ h) else []

end TranslationScheduler

/-- Scan-status value written by add on acceptance. -/
def pendingStr : String := "pending"

/-- A resolved match handed to processTextNode: the matched source
substring and its originating entry. -/
structure VMatch where
  text : String
  entry : WordEntry
  deriving Repr, DecidableEq

/-- One child of the replacement fragment: a plain text node or the
annotation span wrapping a matched substring for an entry. -/
inductive FragChild where
  | plain : String → FragChild
  | wordSpan : String → WordEntry → FragChild
  deriving Repr, DecidableEq

/-- Stable insertion of a match into a length-descending list: the match
goes before the first entry of no greater length, so earlier matches of
equal length stay first. -/
def insertDesc (m : VMatch) : List VMatch → List VMatch
  | [] => [m]
  | x :: xs =>
    if x.text.length ≤ m.text.length then m :: x :: xs else x :: insertDesc m xs

/-- The in-place sort of validMatches with the comparator on text length
descending; JavaScript sort is stable and sortMatches is the stable
descending insertion sort. -/
def sortMatches : List VMatch → List VMatch
  | [] => []
  | x :: xs => insertDesc x (sortMatches xs)

/-- First alternative of the alternation matching at the head of l: the
alternation lists the escaped match texts in sorted order and the
regular-expression engine tries alternatives left to right at each
position. An empty alternative is treated as non-matching; the code only
reaches this with the non-empty matched substrings found in the source
text. -/
def firstMatchAt (pats : List (List Char)) (l : List Char) : Option (List Char) :=
  match pats with
  | [] => none
  | p :: ps => if ¬ p.isEmpty ∧ isPrefixCh p l then some p else firstMatchAt ps l

/-- The split of the node text on the capturing alternation: scan left
to right; at each position the first matching alternative cuts the text,
and the captured separator is kept as its own part. The fuel argument
only bounds the recursion; every alternative returned by firstMatchAt is
non-empty, so a run started with the character count as fuel never
reaches the fuel-exhausted branch. -/
def splitKeepAux (pats : List (List Char)) : Nat → List Char → List Char → List String
  | _, [], acc => [String.mk acc.reverse]
  | 0, l, acc => [String.mk (acc.reverse ++ l)]
  | fuel + 1, c :: cs, acc =>
    match firstMatchAt pats (c :: cs) with
    | some p =>
      String.mk acc.reverse :: String.mk p ::
        splitKeepAux pats fuel ((c :: cs).drop p.length) []
    | none => splitKeepAux pats fuel cs (c :: acc)

/-- processTextNode: given the text-node value and the resolved match
list, return none when the node is left untouched (empty text, or a
split in one piece) and otherwise the fragment children that replace the
node. The matches are sorted longest first, the alternation is built
from them, the text is split keeping the captured separators, and every
part equal to a match text becomes an annotation span while the other
parts become plain text nodes. -/
def processTextNode (text : String) (validMatches : List VMatch) : Option (List FragChild) :=
  if text.isEmpty then none
  else
    let sorted := sortMatches validMatches
    let parts := splitKeepAux (sorted.map (fun m => m.text.data)) text.data.length text.data []
    if parts.length = 1 then none
    else some (parts.map (fun part =>
      match sorted.find? (fun m => m.text == part) with
      | some m => .wordSpan m.text m.entry
      | none => .plain part))

/-- Element-level data the scanner filter reads: the tag name, the
contenteditable flag, whether the element carries the extension's own
container attribute, the scan-status attribute, and whether the element
has a layout box. -/
structure ElemData where
  tag : String
  editable : Bool
  container : Bool
  scanned : Option String
  rendered : Bool
  deriving Repr, DecidableEq

mutual
/-- A DOM node: a text node or an element with children. -/
inductive DNode where
  | txt : String → DNode
  | elem : ElemData → DNodeList → DNode
  deriving Repr, DecidableEq
/-- A list of sibling DOM nodes. -/
inductive DNodeList where
  | nil : DNodeList
  | cons : DNode → DNodeList → DNodeList
  deriving Repr, DecidableEq
end

mutual
/-- innerText of a node, modelled as its concatenated text content. -/
def innerTextN : DNode → String
  | .txt s => s
  | .elem _ cs => innerTextL cs
/-- Concatenated text content of a sibling list. -/
def innerTextL : DNodeList → String
  | .nil => ""
  | .cons n ns => innerTextN n ++ innerTextL ns
end

/-- The block-level tag list of scanAndTranslatePage. -/
def blockTags : List String :=
  [r"P", r"DIV", r"LI", r"H1", r"H2", r"H3", r"H4", r"H5", r"H6", r"BLOCKQUOTE",
   r"PRE", r"ADDRESS", r"ARTICLE", r"ASIDE", r"FIGCAPTION", r"TD", r"TH", r"DD", r"DT"]

/-- The always-skipped technical tags of the walker filter. -/
def technicalTags : List String :=
  [r"SCRIPT", r"STYLE", r"NOSCRIPT", r"IFRAME", r"SVG", r"IMG", r"INPUT", r"TEXTAREA",
   r"CODE", r"HEAD", r"META", r"BUTTON", r"LINK", r"MAP", r"OBJECT", r"VIDEO", r"AUDIO"]

/-- The structural tags rejected in main-content mode. -/
def structuralTags : List String :=
  [r"HEADER", r"FOOTER", r"NAV", r"ASIDE", r"MENU", r"DIALOG"]

mutual
/-- Whether a node is, or contains, a block-tag element: the
querySelector test over the descendants when applied to a child list. -/
def hasBlockN : DNode → Bool
  | .txt _ => false
  | .elem d cs => blockTags.contains d.tag || hasBlockL cs
/-- Whether a sibling list contains a block-tag element. -/
def hasBlockL : DNodeList → Bool
  | .nil => false
  | .cons n ns => hasBlockN n || hasBlockL ns
end

/-- Outcome of the walker filter. -/
inductive FilterRes where
  | reject
  | skip
  | accept
  deriving Repr, DecidableEq

/-- The acceptNode filter of scanAndTranslatePage, reading the element
data, its innerText, and whether a block-tag element sits among its
descendants. -/
def filterRes (isMain : Bool) (d : ElemData) (text : String) (hasBD : Bool) : FilterRes :=
  if technicalTags.contains d.tag then .reject
  else if d.editable then .reject
  else if d.container then .reject
  else if d.scanned.isSome then .reject
  else if ¬ d.rendered then .reject
  else if isMain && structuralTags.contains d.tag then .reject
  else if ¬ blockTags.contains d.tag then .skip
  else if text.isEmpty ∨ ¬ containsChinese text then .skip
  else if hasBD then .skip
  else .accept

/-- The acceptance guard of TranslationScheduler.add as the walk applies
it: the element must not carry the scan attribute and its trimmed
innerText must be non-empty, at least two characters long and Chinese. -/
def addAccepts (scanned : Option String) (text : String) : Bool :=
  match scanned with
  | some _ => false
  | none =>
    let t := jsTrim text
    if t.isEmpty ∨ t.length < 2 ∨ ¬ containsChinese t then false else true

/-- The pending marking add performs at once on an accepted block. -/
def markPending (d : ElemData) : ElemData :=
  ⟨d.tag, d.editable, d.container, some pendingStr, d.rendered⟩

mutual
/-- One scanner pass over a node: the walker filter drives the
traversal; walker-accepted elements run the add guard and, when the
scheduler accepts them, are marked pending at once; the pass returns the
updated tree and the count of scheduler-accepted blocks. -/
def scanN (isMain : Bool) : DNode → DNode × Nat
  | .txt s => (.txt s, 0)
  | .elem d cs =>
    match filterRes isMain d (innerTextL cs) (hasBlockL cs) with
    | .reject => (.elem d cs, 0)
    | .skip =>
      let r := scanL isMain cs
      (.elem d r.1, r.2)
    | .accept =>
      let r := scanL isMain cs
      if addAccepts d.scanned (innerTextL cs)
      then (.elem (markPending d) r.1, r.2 + 1)
      else (.elem d r.1, r.2)
/-- One scanner pass over a sibling list. -/
def scanL (isMain : Bool) : DNodeList → DNodeList × Nat
  | .nil => (.nil, 0)
  | .cons n ns =>
    let a := scanN isMain n
    let b := scanL isMain ns
    (.cons a.1 b.1, a.2 + b.2)
end

/-- scanAndTranslatePage over a root: one walker pass feeding the
scheduler. -/
def scanAndTranslatePage (isMain : Bool) (root : DNode) : DNode × Nat :=
  scanN isMain root

namespace TranslationScheduler

/-- The acceptance guard of add as a standalone test on a block. -/
def addOk (b : BlockView) : Bool :=
  if b.scanned.isSome then false
  else
    let t := jsTrim b.innerText
    if t.isEmpty ∨ t.length < 2 ∨ ¬ containsChinese t then false else true

/-- The buffered item add builds from an accepted block. -/
def itemOf (b : BlockView) : Item :=
  ⟨b.blockId, jsTrim b.innerText⟩

/-- The scheduler state before any block is discovered. -/
def initBuf : SchedBuf :=
  ⟨[], [], none⟩

/-- List a is an initial segment of list b. -/
def headSeg (a b : List BatchReq) : Prop :=
  ∃ t, a ++ t = b

end TranslationScheduler

/-- Text content of one fragment child: annotation spans stand for the
matched substring they wrap. -/
def fragText : FragChild → String
  | .plain s => s
  | .wordSpan t _ => t

/-- Concatenated text content of a fragment. -/
def fragJoin (l : List FragChild) : String :=
  String.mk ((l.map (fun c => (fragText c).data)).flatten)

/-- Concrete strings and records used by the closed instances below. -/
def helloStr : String := "hello"

/-- Entry id used by the closed instances. -/
def e1Str : String := "e1"

/-- Entry whose target-language spelling is the empty string. -/
def emptyEntry : WordEntry :=
  ⟨e1Str, String.mk [], none, none⟩

/-- The source-language word of the annotation example. -/
def catStr : String := "猫"

/-- The target-language spelling of the annotation example. -/
def catEnStr : String := "cat"

/-- The entry of the annotation example. -/
def exEntry : WordEntry :=
  ⟨e1Str, catEnStr, some catStr, none⟩

/-- The text-node value of the annotation example. -/
def exText : String := "I love 猫 very much"

/-- Leading plain text of the annotation example. -/
def iLoveStr : String := "I love "

/-- Trailing plain text of the annotation example. -/
def veryMuchStr : String := " very much"

/-- The expected fragment of the annotation example. -/
def exFrag : List FragChild :=
  [FragChild.plain iLoveStr, FragChild.wordSpan catStr exEntry, FragChild.plain veryMuchStr]

namespace TranslationScheduler

/-- A two-part combined response text. -/
def tHiYo : String := "Hi\n|||\nYo"

/-- First part of tHiYo. -/
def hiStr : String := "Hi"

/-- Second part of tHiYo. -/
def yoStr : String := "Yo"

/-- Name of the concrete engine. -/
def engName : String := "engine"

/-- An enabled engine. -/
def engOn : Engine := ⟨engName, true⟩

/-- An engine list with one enabled engine. -/
def engsOn : List Engine := [engOn]

/-- An engine list with no engine at all. -/
def engsOff : List Engine := []

/-- A collaborator whose promise always rejects. -/
def respRej : BatchReq → JsResult := fun _ => JsResult.rejected

/-- A collaborator that instantly resolves every batch to tHiYo. -/
def respHiYo : BatchReq → JsResult := fun _ => JsResult.resolved ⟨true, some tHiYo⟩

/-- Instantly resolving request durations. -/
def dur0 : BatchReq → Nat := fun _ => 0

/-- Chinese sample text of two characters. -/
def nihaoStr : String := "你好"

/-- Chinese sample text of two characters. -/
def zaijianStr : String := "再见"

/-- Chinese sample text of two characters. -/
def sangeStr : String := "三个"

/-- Chinese sample text of three characters. -/
def nihaomaStr : String := "你好吗"

/-- Chinese sample text of three characters. -/
def tianqihaoStr : String := "天气好"

/-- Items of the concrete batches. -/
def itA : Item := ⟨1, nihaoStr⟩

/-- Items of the concrete batches. -/
def itB : Item := ⟨2, zaijianStr⟩

/-- Items of the concrete batches. -/
def itC : Item := ⟨3, sangeStr⟩

/-- A one-item batch. -/
def bA : BatchReq := mkBatch [itA]

/-- A one-item batch. -/
def bB : BatchReq := mkBatch [itB]

/-- A three-item batch, paired with the two-part response tHiYo. -/
def bABC : BatchReq := mkBatch [itA, itB, itC]

/-- Small accepted blocks used against the debounce timer. -/
def blk1 : BlockView := ⟨1, none, nihaomaStr⟩

/-- Small accepted blocks used against the debounce timer. -/
def blk2 : BlockView := ⟨2, none, tianqihaoStr⟩

/-- A 1500-character Chinese text, half of the character budget. -/
def bigText : String := String.mk (List.replicate 1500 '猫')

/-- A block holding bigText. -/
def blkBig1 : BlockView := ⟨1, none, bigText⟩

/-- A second block holding bigText. -/
def blkBig2 : BlockView := ⟨2, none, bigText⟩

/-- A small third block. -/
def blkSmall : BlockView := ⟨3, none, nihaomaStr⟩

end TranslationScheduler

/-- The tag of the example paragraph element. -/
def pTagStr : String := "P"

/-- An unscanned rendered paragraph element. -/
def pElem : ElemData := ⟨pTagStr, false, false, none, true⟩

/-- A paragraph already carrying the scan attribute. -/
def dMarked : ElemData := ⟨pTagStr, false, false, some pendingStr, true⟩

/-- A root with one Chinese paragraph. -/
def exRoot : DNode :=
  DNode.elem pElem (DNodeList.cons (DNode.txt TranslationScheduler.nihaomaStr) DNodeList.nil)

theorem isPrefixCh_iff {p l : List Char} : isPrefixCh p l = true ↔ ∃ t, l = p ++ t := by
  induction p generalizing l with
  | nil =>
    simp [isPrefixCh]
  | cons a as ih =>
    cases l with
    | nil =>
      simp [isPrefixCh]
    | cons b bs =>
      simp only [isPrefixCh, Bool.and_eq_true, beq_iff_eq, ih, List.cons_append,
        List.cons.injEq]
      constructor
      · rintro ⟨rfl, t, rfl⟩
        exact ⟨t, rfl, rfl⟩
      · rintro ⟨t, rfl, rfl⟩
        exact ⟨rfl, t, rfl⟩

theorem containsCh_iff {n h : List Char} : containsCh n h = true ↔ occursIn n h := by
  induction h with
  | nil =>
    simp only [containsCh, List.isEmpty_iff, occursIn]
    constructor
    · rintro rfl
      exact ⟨[], [], rfl⟩
    · rintro ⟨a, b, hab⟩
      rcases List.append_eq_nil.mp hab.symm with ⟨han, hb⟩
      exact (List.append_eq_nil.mp han).2
  | cons c rest ih =>
    simp only [containsCh, Bool.or_eq_true, isPrefixCh_iff, ih]
    constructor
    · rintro (⟨t, ht⟩ | hocc)
      · exact ⟨[], t, by simpa using ht⟩
      · obtain ⟨a, b, hab⟩ := hocc
        exact ⟨c :: a, b, by simp [hab]⟩
    · rintro ⟨a, b, hab⟩
      cases a with
      | nil =>
        left
        exact ⟨b, by simpa using hab⟩
      | cons a0 as =>
        right
        rw [List.cons_append, List.cons_append] at hab
        injection hab with h1 h2
        exact ⟨as, b, by simpa using h2⟩

theorem containsCh_nil_left (h : List Char) : containsCh [] h = true := by
  cases h <;> simp [containsCh, isPrefixCh]

/-- C8 (corrected): the verification filter keeps an entry exactly when
its lower-cased spelling occurs inside the lower-cased translated text,
or when morphology matching is on and some lower-cased inflection of the
entry occurs there; and, contrary to the claim as stated, an entry whose
target-language string is empty is always kept, because the empty string
occurs in every text. -/
theorem c8_verification_candidates (mi : Bool) (t : String) (e : WordEntry) :
    (verifies mi t e = true ↔
      (occursIn (jsToLower e.text).data (jsToLower t).data ∨
        (mi = true ∧ ∃ infl ∈ e.inflections.getD [],
          occursIn (jsToLower infl).data (jsToLower t).data))) ∧
    (e.text.isEmpty = true → verifies mi t e = true) := by
  have hinc : ∀ a b : String, includesJS a b = true ↔ occursIn b.data a.data := by
    intro a b
    exact containsCh_iff
  constructor
  · by_cases hi : includesJS (jsToLower t) (jsToLower e.text) = true
    · simp only [verifies, hi, if_true, true_iff]
      exact Or.inl ((hinc _ _).mp hi)
    · have hocc : ¬ occursIn (jsToLower e.text).data (jsToLower t).data := by
        rw [← hinc]
        simpa using hi
      rw [Bool.not_eq_true] at hi
      cases mi with
      | false =>
        simp [verifies, hi, hocc]
      | true =>
        cases hinf : e.inflections with
        | none =>
          simp [verifies, hi, hocc, hinf]
        | some infls =>
          simp [verifies, hi, hocc, hinf, List.any_eq_true, hinc]
  · intro hemp
    have : e.text.data = [] := by
      have h0 : e.text = String.mk [] := by
        simpa using (String.isEmpty_iff e.text).mp hemp
      simp [h0]
    have hji : jsToLower e.text = String.mk [] := by
      simp [jsToLower, this]
    simp [verifies, includesJS, hji, containsCh_nil_left]

/-- C8 counterexample: an entry whose target-language string is empty is
accepted by the verification filter for the text hello, refuting the
claim that an entry with an empty translation string is never a
candidate. -/
theorem c8_verification_candidates_cex :
    emptyEntry.text.isEmpty = true ∧ verifies false helloStr emptyEntry = true := by
  constructor
  · decide
  · decide

/-- Closed instance of c8_verification_candidates discharging its
hypothesis. -/
theorem c8_verification_candidates_witness :
    verifies true helloStr emptyEntry = true :=
  (c8_verification_candidates true helloStr emptyEntry).2 (by decide)

namespace TranslationScheduler

theorem processQueue_cons {engines : List Engine} {respond : BatchReq → JsResult}
    {dur : BatchReq → Nat} {b : BatchReq} {rest : List BatchReq} {t : Nat}
    (hEng : (engines.find? (fun e => e.isEnabled)).isSome = true) :
    processQueue engines respond dur (b :: rest) t =
      ⟨(b, t) ::
        (processQueue engines respond dur rest (t + dur b + rateLimitDelay)).sends,
       handleBatch respond b ++
        (processQueue engines respond dur rest (t + dur b + rateLimitDelay)).events,
       (processQueue engines respond dur rest (t + dur b + rateLimitDelay)).leftover⟩ := by
  obtain ⟨e, he⟩ := Option.isSome_iff_exists.mp hEng
  simp [processQueue, he]

theorem processQueue_sends_fst (engines : List Engine) (respond : BatchReq → JsResult)
    (dur : BatchReq → Nat) (hEng : (engines.find? (fun e => e.isEnabled)).isSome = true) :
    ∀ (qs : List BatchReq) (t : Nat),
      ((processQueue engines respond dur qs t).sends).map Prod.fst = qs := by
  intro qs
  induction qs with
  | nil =>
    intro t
    simp [processQueue]
  | cons b rest ih =>
    intro t
    rw [processQueue_cons hEng]
    simp [ih]

theorem processQueue_events (engines : List Engine) (respond : BatchReq → JsResult)
    (dur : BatchReq → Nat) (hEng : (engines.find? (fun e => e.isEnabled)).isSome = true) :
    ∀ (qs : List BatchReq) (t : Nat),
      (processQueue engines respond dur qs t).events =
        (qs.map (handleBatch respond)).flatten := by
  intro qs
  induction qs with
  | nil =>
    intro t
    simp [processQueue]
  | cons b rest ih =>
    intro t
    rw [processQueue_cons hEng]
    simp [ih]

theorem processQueue_leftover (engines : List Engine) (respond : BatchReq → JsResult)
    (dur : BatchReq → Nat) (hEng : (engines.find? (fun e => e.isEnabled)).isSome = true) :
    ∀ (qs : List BatchReq) (t : Nat),
      (processQueue engines respond dur qs t).leftover = [] := by
  intro qs
  induction qs with
  | nil =>
    intro t
    simp [processQueue]
  | cons b rest ih =>
    intro t
    rw [processQueue_cons hEng]
    simp [ih]

theorem processQueue_sends_adjacent (engines : List Engine) (respond : BatchReq → JsResult)
    (dur : BatchReq → Nat) (hEng : (engines.find? (fun e => e.isEnabled)).isSome = true) :
    ∀ (qs : List BatchReq) (t i : Nat) (b1 b2 : BatchReq) (t1 t2 : Nat),
      ((processQueue engines respond dur qs t).sends)[i]? = some (b1, t1) →
      ((processQueue engines respond dur qs t).sends)[i+1]? = some (b2, t2) →
      t2 = t1 + dur b1 + rateLimitDelay := by
  intro qs
  induction qs with
  | nil =>
    intro t i b1 b2 t1 t2 h1 h2
    simp [processQueue] at h1
  | cons b rest ih =>
    intro t i b1 b2 t1 t2 h1 h2
    rw [processQueue_cons hEng] at h1 h2
    cases i with
    | zero =>
      simp only [List.getElem?_cons_zero, Option.some.injEq, Prod.mk.injEq] at h1
      obtain ⟨rfl, rfl⟩ := h1
      cases rest with
      | nil =>
        simp [processQueue] at h2
      | cons b' rest' =>
        rw [List.getElem?_cons_succ] at h2
        rw [processQueue_cons hEng] at h2
        simp only [List.getElem?_cons_zero, Option.some.injEq, Prod.mk.injEq] at h2
        omega
    | succ j =>
      rw [List.getElem?_cons_succ] at h1 h2
      exact ih _ j b1 b2 t1 t2 h1 h2

/-- C1: under an enabled engine, two consecutively dispatched requests of
one loop run start at least rateLimitDelay apart, for every collaborator
outcome (success, failure or rejection) and every request duration; with
an instantly resolving collaborator the gap is exactly rateLimitDelay. -/
theorem c1_inter_batch_delay (engines : List Engine) (respond : BatchReq → JsResult)
    (dur : BatchReq → Nat) (qs : List BatchReq) (t i : Nat) (b1 b2 : BatchReq) (t1 t2 : Nat)
    (hEng : (engines.find? (fun e => e.isEnabled)).isSome = true)
    (h1 : ((processQueue engines respond dur qs t).sends)[i]? = some (b1, t1))
    (h2 : ((processQueue engines respond dur qs t).sends)[i+1]? = some (b2, t2)) :
    t1 + rateLimitDelay ≤ t2 ∧ (dur b1 = 0 → t2 = t1 + rateLimitDelay) := by
  have h := processQueue_sends_adjacent engines respond dur hEng qs t i b1 b2 t1 t2 h1 h2
  omega

/-- Closed instance of c1_inter_batch_delay: a queue of two batches with
an instantly resolving collaborator sends at times 0 and rateLimitDelay. -/
theorem c1_inter_batch_delay_witness :
    ((engsOn.find? (fun e => e.isEnabled)).isSome = true) ∧
    ((processQueue engsOn respHiYo dur0 [bA, bB] 0).sends)[0]? = some (bA, 0) ∧
    ((processQueue engsOn respHiYo dur0 [bA, bB] 0).sends)[1]? = some (bB, rateLimitDelay) ∧
    (0 + rateLimitDelay ≤ rateLimitDelay ∧ (dur0 bA = 0 → rateLimitDelay = 0 + rateLimitDelay)) :=
  ⟨by decide, by decide, by decide,
    c1_inter_batch_delay engsOn respHiYo dur0 [bA, bB] 0 0 bA bB 0 rateLimitDelay
      (by decide) (by decide) (by decide)⟩

/-- C6 (corrected): when the loop pops a batch and finds no enabled
engine it aborts: nothing is sent, no action is performed (in particular
no block is marked error), and the batches after the popped one stay
queued; the popped batch itself is dropped. -/
theorem c6_no_engine_abort (engines : List Engine) (respond : BatchReq → JsResult)
    (dur : BatchReq → Nat) (b : BatchReq) (rest : List BatchReq) (t : Nat)
    (hEng : engines.find? (fun e => e.isEnabled) = none) :
    processQueue engines respond dur (b :: rest) t = ⟨[], [], rest⟩ := by
  simp [processQueue, hEng]

/-- C6 counterexample: with two queued batches and no engine, the first
batch is popped and dropped — it is neither sent nor left queued — so the
claim that no queued batch is lost by the abort fails. -/
theorem c6_no_engine_abort_cex :
    (processQueue engsOff respRej dur0 [bA, bB] 0).sends = [] ∧
    (processQueue engsOff respRej dur0 [bA, bB] 0).events = [] ∧
    (processQueue engsOff respRej dur0 [bA, bB] 0).leftover = [bB] ∧
    bA ∈ [bA, bB] ∧ bA ∉ (processQueue engsOff respRej dur0 [bA, bB] 0).leftover :=
  ⟨by decide, by decide, by decide, by decide, by decide⟩

/-- Closed instance of c6_no_engine_abort discharging its hypothesis. -/
theorem c6_no_engine_abort_witness :
    engsOff.find? (fun e => e.isEnabled) = none ∧
    processQueue engsOff respRej dur0 [bA, bB] 0 = ⟨[], [], [bB]⟩ :=
  ⟨rfl, c6_no_engine_abort engsOff respRej dur0 bA [bB] 0 rfl⟩

theorem handleBatch_fails (respond : BatchReq → JsResult) (b : BatchReq)
    (hf : respFails (respond b) = true) :
    handleBatch respond b = b.items.map (fun it => Evt.markError it.blockId) := by
  unfold handleBatch
  unfold respFails respOk at hf
  cases hr : respond b with
  | rejected => rfl
  | resolved r =>
    rw [hr] at hf
    cases ht : r.targetText with
    | none => simp [ht]
    | some s =>
      have hf2 : (r.success && !s.isEmpty) = false := by
        simp only [ht] at hf
        rw [Bool.not_eq_true'] at hf
        exact hf
      simp [ht, hf2]

/-- C5: under an enabled engine every queued batch is sent exactly once
and in order regardless of outcomes, the queue is fully drained, and on
every batch whose request fails (rejected promise, unsuccessful
response, or missing or empty target text) every block of that batch is
marked error. -/
theorem c5_batch_failure_marks (engines : List Engine) (respond : BatchReq → JsResult)
    (dur : BatchReq → Nat) (qs : List BatchReq) (t : Nat)
    (hEng : (engines.find? (fun e => e.isEnabled)).isSome = true) :
    ((processQueue engines respond dur qs t).sends).map Prod.fst = qs ∧
    (processQueue engines respond dur qs t).leftover = [] ∧
    ∀ b ∈ qs, respFails (respond b) = true →
      ∀ it ∈ b.items, Evt.markError it.blockId ∈ (processQueue engines respond dur qs t).events := by
  refine ⟨processQueue_sends_fst engines respond dur hEng qs t,
    processQueue_leftover engines respond dur hEng qs t, ?_⟩
  intro b hb hf it hit
  rw [processQueue_events engines respond dur hEng qs t]
  rw [List.mem_flatten]
  refine ⟨handleBatch respond b, List.mem_map_of_mem _ hb, ?_⟩
  rw [handleBatch_fails respond b hf]
  exact List.mem_map_of_mem _ hit

/-- Closed instance of c5_batch_failure_marks on a rejecting collaborator
and a three-item batch. -/
theorem c5_batch_failure_marks_witness :
    ((engsOn.find? (fun e => e.isEnabled)).isSome = true) ∧
    ((processQueue engsOn respRej dur0 [bABC] 0).sends).map Prod.fst = [bABC] ∧
    Evt.markError itA.blockId ∈ (processQueue engsOn respRej dur0 [bABC] 0).events := by
  have h := c5_batch_failure_marks engsOn respRej dur0 [bABC] 0 (by decide)
  exact ⟨by decide, h.1, h.2.2 bABC (by decide) (by decide) itA (by decide)⟩

/-- C4: the success branch zips the split parts back to the batch items
by position and in the order the blocks were appended; a part missing
from a short response yields the empty string for its block; and the
split collapses whitespace around the delimiter, as the closed equation
on tHiYo shows. -/
theorem c4_split_zip :
    (∀ (items : List Item) (full : String),
      (appliedPairs items full).map Prod.fst = items) ∧
    (∀ (items : List Item) (full : String) (i : Nat) (p : Item × String),
      (appliedPairs items full)[i]? = some p → (splitJS full).length ≤ i →
      p.2 = String.mk []) ∧
    splitJS tHiYo = [hiStr, yoStr] := by
  refine ⟨?_, ?_, by decide⟩
  · intro items full
    unfold appliedPairs
    rw [List.map_map]
    have hcomp : (Prod.fst ∘ fun p : Nat × Item => (p.2, orEmpty ((splitJS full).get? p.1)))
        = Prod.snd := rfl
    rw [hcomp]
    exact List.enum_map_snd items
  · intro items full i p hp hlen
    unfold appliedPairs at hp
    rw [List.getElem?_map, List.getElem?_enum] at hp
    cases he : items[i]? with
    | none =>
      rw [he] at hp
      simp at hp
    | some a =>
      rw [he] at hp
      simp only [Option.map_some', Option.some.injEq] at hp
      have hnone : (splitJS full)[i]? = none := List.getElem?_eq_none hlen
      rw [← hp]
      simp [orEmpty, List.get?_eq_getElem?, hnone]

/-- Closed instance of c4_split_zip: three items against the two-part
response tHiYo give the empty string to the third block. -/
theorem c4_split_zip_witness :
    ((appliedPairs [itA, itB, itC] tHiYo)[2]? = some (itC, String.mk [])) ∧
    ((splitJS tHiYo).length ≤ 2) ∧
    ((appliedPairs [itA, itB, itC] tHiYo).map Prod.fst = [itA, itB, itC]) ∧
    (itC, String.mk []).2 = String.mk [] :=
  ⟨by decide, by decide, c4_split_zip.1 [itA, itB, itC] tHiYo,
    c4_split_zip.2.1 [itA, itB, itC] tHiYo 2 (itC, String.mk []) (by decide) (by decide)⟩

theorem runLoopA_fifo : ∀ (arr : List (List BatchReq)) (q : List BatchReq),
    headSeg (runLoopA true arr q) (q ++ arr.flatten) := by
  intro arr
  induction arr with
  | nil =>
    intro q
    exact ⟨[], by simp [runLoopA]⟩
  | cons h tl ih =>
    intro q
    cases q with
    | nil =>
      exact ⟨(h :: tl).flatten, by simp [runLoopA]⟩
    | cons b rest =>
      obtain ⟨t, ht⟩ := ih (rest ++ h)
      refine ⟨t, ?_⟩
      simp only [runLoopA, if_true, List.cons_append, List.cons.injEq, true_and]
      rw [ht]
      simp [List.append_assoc]

/-- C2: the re-entrancy guard makes a second entry into processQueue a
no-op while a worker runs; the drain order of one worker is an initial
segment of the queue followed by the arrivals in flush order (strict
FIFO); and under an enabled engine the next request starts only after
the previous one has resolved and the delay has passed, so requests
never overlap in flight. -/
theorem c2_single_worker_fifo :
    (∀ (engines : List Engine) (respond : BatchReq → JsResult) (dur : BatchReq → Nat)
      (st : SchedState) (t : Nat), st.isProcessingQueue = true →
      processQueueEntry engines respond dur st t = (st, ⟨[], [], []⟩)) ∧
    (∀ (arr : List (List BatchReq)) (q : List BatchReq),
      headSeg (runLoopA true arr q) (q ++ arr.flatten)) ∧
    (∀ (engines : List Engine) (respond : BatchReq → JsResult) (dur : BatchReq → Nat)
      (qs : List BatchReq) (t i : Nat) (b1 b2 : BatchReq) (t1 t2 : Nat),
      (engines.find? (fun e => e.isEnabled)).isSome = true →
      ((processQueue engines respond dur qs t).sends)[i]? = some (b1, t1) →
      ((processQueue engines respond dur qs t).sends)[i+1]? = some (b2, t2) →
      t1 + dur b1 ≤ t2) := by
  refine ⟨?_, runLoopA_fifo, ?_⟩
  · intro engines respond dur st t h
    simp [processQueueEntry, h]
  · intro engines respond dur qs t i b1 b2 t1 t2 hEng h1 h2
    have h := processQueue_sends_adjacent engines respond dur hEng qs t i b1 b2 t1 t2 h1 h2
    omega

/-- Closed instance of c2_single_worker_fifo. -/
theorem c2_single_worker_fifo_witness :
    (processQueueEntry engsOn respRej dur0 ⟨[bA], true⟩ 0 = (⟨[bA], true⟩, ⟨[], [], []⟩)) ∧
    headSeg (runLoopA true [[bB]] [bA]) ([bA] ++ [[bB]].flatten) ∧
    0 + dur0 bA ≤ rateLimitDelay :=
  ⟨c2_single_worker_fifo.1 engsOn respRej dur0 ⟨[bA], true⟩ 0 rfl,
    c2_single_worker_fifo.2.1 [[bB]] [bA],
    c2_single_worker_fifo.2.2 engsOn respHiYo dur0 [bA, bB] 0 0 bA bB 0 rateLimitDelay
      (by decide) (by decide) (by decide)⟩

end TranslationScheduler

namespace TranslationScheduler

theorem charSum_append (a b : List Item) : charSum (a ++ b) = charSum a + charSum b := by
  simp [charSum]

theorem add_accepted {b : BlockView} (now : Nat) (s : SchedBuf) (hok : addOk b = true) :
    add now b s = scheduleFlush now ⟨s.buffer ++ [itemOf b], s.requestQueue, s.timer⟩ := by
  by_cases h1 : b.scanned.isSome = true
  · simp [addOk, h1] at hok
  · by_cases h2 : (jsTrim b.innerText).isEmpty = true ∨ (jsTrim b.innerText).length < 2 ∨
        ¬ containsChinese (jsTrim b.innerText) = true
    · simp [addOk, h1] at hok
      rcases h2 with h | h | h
      · simp_all
      · omega
      · simp_all
    · simp only [add, itemOf]
      rw [if_neg h1, if_neg h2]

theorem add_queue_extend (now : Nat) (b : BlockView) (s : SchedBuf) :
    ∃ l, (add now b s).requestQueue = s.requestQueue ++ l := by
  simp only [add, scheduleFlush, flushBufferToQueue]
  split
  · exact ⟨[], by simp⟩
  · split
    · exact ⟨[], by simp⟩
    · split
      · split
        · exact ⟨[], by simp⟩
        · exact ⟨_, rfl⟩
      · split
        · exact ⟨[], by simp⟩
        · exact ⟨[], by simp⟩

theorem addAll_cons (now : Nat) (b : BlockView) (bs : List BlockView) (s : SchedBuf) :
    addAll now (b :: bs) s = addAll now bs (add now b s) := rfl

theorem addAll_append (now : Nat) (A B : List BlockView) (s : SchedBuf) :
    addAll now (A ++ B) s = addAll now B (addAll now A s) := by
  simp [addAll, List.foldl_append]

theorem addAll_queue_extend (now : Nat) (bs : List BlockView) :
    ∀ s : SchedBuf, ∃ l, (addAll now bs s).requestQueue = s.requestQueue ++ l := by
  induction bs with
  | nil =>
    intro s
    exact ⟨[], by simp [addAll]⟩
  | cons b bs ih =>
    intro s
    rw [addAll_cons]
    obtain ⟨l1, h1⟩ := add_queue_extend now b s
    obtain ⟨l2, h2⟩ := ih (add now b s)
    exact ⟨l1 ++ l2, by rw [h2, h1, List.append_assoc]⟩

theorem addAll_buffering : ∀ (A : List BlockView) (now : Nat) (P : List Item)
    (q : List BatchReq) (tr : Option Nat),
    (∀ b ∈ A, addOk b = true) →
    (∀ j, 1 ≤ j → j ≤ A.length →
      P.length + j < maxBatchSize ∧ charSum (P ++ (A.take j).map itemOf) < maxCharCount) →
    ∃ tr2, addAll now A ⟨P, q, tr⟩ = ⟨P ++ A.map itemOf, q, tr2⟩ := by
  intro A
  induction A with
  | nil =>
    intro now P q tr hok hlim
    exact ⟨tr, by simp [addAll]⟩
  | cons a A' ih =>
    intro now P q tr hok hlim
    rw [addAll_cons]
    rw [add_accepted now ⟨P, q, tr⟩ (hok a (by simp))]
    have h1 := hlim 1 (by omega) (by simp)
    simp only [List.take_succ_cons, List.take_zero, List.map_cons, List.map_nil] at h1
    have hlen : (P ++ [itemOf a]).length = P.length + 1 := by simp
    have hcond : ¬ (maxBatchSize ≤ (P ++ [itemOf a]).length ∨
        maxCharCount ≤ charSum (P ++ [itemOf a])) := by
      push_neg
      constructor
      · omega
      · omega
    simp only [scheduleFlush]
    rw [if_neg hcond]
    have happ : ∀ tr' : Option Nat,
        ∃ tr2, addAll now A' ⟨P ++ [itemOf a], q, tr'⟩ =
          ⟨P ++ (a :: A').map itemOf, q, tr2⟩ := by
      intro tr'
      have hok' : ∀ b ∈ A', addOk b = true := fun b hb => hok b (by simp [hb])
      have hlim' : ∀ j, 1 ≤ j → j ≤ A'.length →
          (P ++ [itemOf a]).length + j < maxBatchSize ∧
          charSum ((P ++ [itemOf a]) ++ (A'.take j).map itemOf) < maxCharCount := by
        intro j hj1 hj2
        have h2 := hlim (j + 1) (by omega) (by simp; omega)
        simp only [List.take_succ_cons, List.map_cons] at h2
        rw [List.append_cons] at h2
        constructor
        · omega
        · exact h2.2
      obtain ⟨tr2, htr2⟩ := ih now (P ++ [itemOf a]) q tr' hok' hlim'
      refine ⟨tr2, ?_⟩
      rw [htr2]
      simp
    split
    · exact happ _
    · exact happ _

end TranslationScheduler

namespace TranslationScheduler

theorem charSum_take_le (bs : List BlockView) {i j : Nat} (hij : i ≤ j) :
    charSum ((bs.take i).map itemOf) ≤ charSum ((bs.take j).map itemOf) := by
  have hj : j = i + (j - i) := by omega
  rw [hj, List.take_add bs i (j - i), List.map_append, charSum_append]
  omega

/-- C3 (corrected): after every accepted add the scheduler flushes the
whole buffer into one queued batch as soon as the buffer holds
maxBatchSize blocks or maxCharCount characters; otherwise it starts the
debounce timer only when no timer is pending — an add during a pending
timer leaves the existing deadline unchanged rather than restarting it.
Consequently, adding a list of blocks whose cumulative character count
reaches the budget at position k, with k below the block-count limit and
before the end of the list, queues the first k blocks as one batch
holding fewer blocks than were added. -/
theorem c3_flush_conditions :
    (∀ (now : Nat) (b : BlockView) (s : SchedBuf), addOk b = true →
      ((maxBatchSize ≤ (s.buffer ++ [itemOf b]).length ∨
          maxCharCount ≤ charSum (s.buffer ++ [itemOf b])) →
        add now b s = ⟨[], s.requestQueue ++ [mkBatch (s.buffer ++ [itemOf b])], none⟩) ∧
      ((s.buffer ++ [itemOf b]).length < maxBatchSize ∧
          charSum (s.buffer ++ [itemOf b]) < maxCharCount →
        add now b s = ⟨s.buffer ++ [itemOf b], s.requestQueue,
          if s.timer = none then some (now + debounceDelay) else s.timer⟩)) ∧
    (∀ (now : Nat) (bs : List BlockView) (k : Nat),
      (∀ b ∈ bs, addOk b = true) → 1 ≤ k → k < bs.length → k < maxBatchSize →
      charSum ((bs.take (k - 1)).map itemOf) < maxCharCount →
      maxCharCount ≤ charSum ((bs.take k).map itemOf) →
      (addAll now bs initBuf).requestQueue.head? =
        some (mkBatch ((bs.take k).map itemOf)) ∧
      ((bs.take k).map itemOf).length < bs.length) := by
  constructor
  · intro now b s hok
    rw [add_accepted now s hok]
    constructor
    · intro hcond
      simp only [scheduleFlush]
      rw [if_pos hcond]
      simp only [flushBufferToQueue]
      rw [if_neg (by simp)]
    · intro hcond
      simp only [scheduleFlush]
      rw [if_neg (by push_neg; omega)]
      split <;> rename_i h <;> simp [h]
  · intro now bs k hok hk1 hkN hksize hbefore hafter
    have hk1N : k - 1 < bs.length := by omega
    have hbuf := addAll_buffering (bs.take (k - 1)) now [] [] none
      (fun b hb => hok b (List.mem_of_mem_take hb))
      (by
        intro j hj1 hj2
        rw [List.length_take] at hj2
        rw [List.take_take j (k - 1) bs]
        constructor
        · simp only [List.length_nil]
          omega
        · simp only [List.nil_append]
          have hjk : min j (k - 1) = j := by omega
          rw [hjk]
          calc charSum ((bs.take j).map itemOf)
              ≤ charSum ((bs.take (k - 1)).map itemOf) := charSum_take_le bs (by omega)
            _ < maxCharCount := hbefore)
    obtain ⟨tr2, htr2⟩ := hbuf
    simp only [List.nil_append] at htr2
    have hkk : k - 1 + 1 = k := by omega
    have hsplit : bs = bs.take (k - 1) ++ (bs[k - 1] :: bs.drop k) := by
      have h2 := List.drop_eq_getElem_cons hk1N
      rw [hkk] at h2
      calc bs = bs.take (k - 1) ++ bs.drop (k - 1) := (List.take_append_drop _ _).symm
        _ = bs.take (k - 1) ++ (bs[k - 1] :: bs.drop k) := by rw [h2]
    have htake : (bs.take (k - 1)).map itemOf ++ [itemOf bs[k - 1]] =
        (bs.take k).map itemOf := by
      have h3 : bs.take (k - 1 + 1) = bs.take (k - 1) ++ [bs[k - 1]] := by
        rw [List.take_succ, List.getElem?_eq_getElem hk1N]
        rfl
      rw [hkk] at h3
      rw [h3, List.map_append, List.map_singleton]
    have hmem : bs[k - 1] ∈ bs := List.getElem_mem hk1N
    have hrw : addAll now bs initBuf =
        addAll now (bs.take (k - 1) ++ (bs[k - 1] :: bs.drop k)) initBuf :=
      congrArg (fun l => addAll now l initBuf) hsplit
    rw [hrw, addAll_append]
    simp only [initBuf]
    rw [htr2, addAll_cons]
    rw [add_accepted now _ (hok _ hmem)]
    simp only [scheduleFlush, htake]
    rw [if_pos (Or.inr hafter)]
    simp only [flushBufferToQueue]
    rw [if_neg (by rw [← htake]; simp)]
    obtain ⟨l, hl⟩ := addAll_queue_extend now (bs.drop k)
      ⟨[], [] ++ [mkBatch ((bs.take k).map itemOf)], none⟩
    constructor
    · rw [hl]
      simp only [List.nil_append]
      rw [List.head?_append_of_ne_nil [mkBatch ((bs.take k).map itemOf)] (by simp)]
      rfl
    · rw [List.length_map, List.length_take]
      omega

end TranslationScheduler

namespace TranslationScheduler

/-- C3 counterexample: a second accepted add at time 100, while the
timer started at time 0 is still pending and no flush condition holds,
leaves the timer deadline at 0 + debounceDelay instead of restarting it
to 100 + debounceDelay — the debounce timer is not restarted by later
adds within the window. -/
theorem c3_flush_conditions_cex :
    (add 100 blk2 (add 0 blk1 initBuf)).timer = some (0 + debounceDelay) ∧
    (add 100 blk2 (add 0 blk1 initBuf)).timer ≠ some (100 + debounceDelay) :=
  ⟨by decide, by decide⟩

set_option maxRecDepth 10000 in
/-- Closed instance of c3_flush_conditions: a single small add starts the
timer, and two 1500-character blocks cross the 3000-character budget at
position 2 of 3, so the first queued batch holds exactly those two
blocks. -/
theorem c3_flush_conditions_witness :
    (addOk blk1 = true) ∧
    (add 0 blk1 initBuf = ⟨initBuf.buffer ++ [itemOf blk1], initBuf.requestQueue,
      if initBuf.timer = none then some (0 + debounceDelay) else initBuf.timer⟩) ∧
    (∀ b ∈ [blkBig1, blkBig2, blkSmall], addOk b = true) ∧
    (addAll 0 [blkBig1, blkBig2, blkSmall] initBuf).requestQueue.head? =
      some (mkBatch (([blkBig1, blkBig2, blkSmall].take 2).map itemOf)) ∧
    (([blkBig1, blkBig2, blkSmall].take 2).map itemOf).length <
      ([blkBig1, blkBig2, blkSmall] : List BlockView).length := by
  have h2 := c3_flush_conditions.2 0 [blkBig1, blkBig2, blkSmall] 2 (by decide) (by decide)
    (by decide) (by decide) (by decide) (by decide)
  exact ⟨by decide, (c3_flush_conditions.1 0 blk1 initBuf (by decide)).2 (by decide),
    by decide, h2.1, h2.2⟩

end TranslationScheduler

theorem firstMatchAt_some {pats : List (List Char)} {l p : List Char}
    (h : firstMatchAt pats l = some p) : ¬ p.isEmpty ∧ isPrefixCh p l = true := by
  induction pats with
  | nil => simp [firstMatchAt] at h
  | cons q qs ih =>
    unfold firstMatchAt at h
    split at h
    · cases h
      rename_i hq
      exact ⟨hq.1, hq.2⟩
    · exact ih h

theorem occursIn_cons {p cs : List Char} (c : Char) (h : occursIn p cs) :
    occursIn p (c :: cs) := by
  obtain ⟨a, b, rfl⟩ := h
  exact ⟨c :: a, b, rfl⟩

theorem splitKeepAux_join (pats : List (List Char)) :
    ∀ (fuel : Nat) (l acc : List Char),
      ((splitKeepAux pats fuel l acc).map String.data).flatten = acc.reverse ++ l := by
  intro fuel
  induction fuel with
  | zero =>
    intro l acc
    cases l with
    | nil => simp [splitKeepAux]
    | cons c cs => simp [splitKeepAux]
  | succ fuel ih =>
    intro l acc
    cases l with
    | nil => simp [splitKeepAux]
    | cons c cs =>
      unfold splitKeepAux
      cases hm : firstMatchAt pats (c :: cs) with
      | none =>
        simp only [List.map_cons]
        rw [ih cs (c :: acc)]
        simp
      | some p =>
        obtain ⟨hne, hpre⟩ := firstMatchAt_some hm
        obtain ⟨t, ht⟩ := isPrefixCh_iff.mp hpre
        simp only [List.map_cons, List.flatten_cons]
        rw [ih ((c :: cs).drop p.length) []]
        rw [ht, List.drop_left]
        simp

theorem splitKeepAux_no_occur (pats : List (List Char)) :
    ∀ (fuel : Nat) (l acc : List Char),
      (∀ p ∈ pats, ¬ occursIn p l) →
      splitKeepAux pats fuel l acc = [String.mk (acc.reverse ++ l)] := by
  intro fuel
  induction fuel with
  | zero =>
    intro l acc hno
    cases l with
    | nil => simp [splitKeepAux]
    | cons c cs => simp [splitKeepAux]
  | succ fuel ih =>
    intro l acc hno
    cases l with
    | nil => simp [splitKeepAux]
    | cons c cs =>
      unfold splitKeepAux
      cases hm : firstMatchAt pats (c :: cs) with
      | none =>
        rw [ih cs (c :: acc) (fun p hp ho => hno p hp (occursIn_cons c ho))]
        simp
      | some p =>
        exfalso
        obtain ⟨hne, hpre⟩ := firstMatchAt_some hm
        obtain ⟨t, ht⟩ := isPrefixCh_iff.mp hpre
        have hp : p ∈ pats := by
          clear ih hno
          induction pats with
          | nil => simp [firstMatchAt] at hm
          | cons q qs ihq =>
            unfold firstMatchAt at hm
            split at hm
            · cases hm
              simp
            · simp [ihq hm]
        exact hno p hp ⟨[], t, by simpa using ht⟩

theorem mem_insertDesc {m x : VMatch} {l : List VMatch} :
    x ∈ insertDesc m l ↔ x = m ∨ x ∈ l := by
  induction l with
  | nil => simp [insertDesc]
  | cons y ys ih =>
    unfold insertDesc
    split
    · simp
    · rw [List.mem_cons, ih]
      constructor
      · rintro (rfl | rfl | hx)
        · simp
        · simp
        · simp [hx]
      · rintro (rfl | hx)
        · simp
        · rcases List.mem_cons.mp hx with rfl | hx
          · simp
          · simp [hx]

theorem mem_sortMatches {x : VMatch} {l : List VMatch} : x ∈ sortMatches l ↔ x ∈ l := by
  induction l with
  | nil => simp [sortMatches]
  | cons y ys ih =>
    unfold sortMatches
    rw [mem_insertDesc, ih]
    simp

theorem pairwise_insertDesc {m : VMatch} {l : List VMatch}
    (h : List.Pairwise (fun a b => b.text.length ≤ a.text.length) l) :
    List.Pairwise (fun a b => b.text.length ≤ a.text.length) (insertDesc m l) := by
  induction l with
  | nil => simp [insertDesc]
  | cons y ys ih =>
    rw [List.pairwise_cons] at h
    unfold insertDesc
    split
    · rename_i hc
      rw [List.pairwise_cons]
      constructor
      · intro z hz
        rcases List.mem_cons.mp hz with rfl | hz
        · exact hc
        · exact le_trans (h.1 z hz) hc
      · rw [List.pairwise_cons]
        exact h
    · rename_i hc
      rw [List.pairwise_cons]
      constructor
      · intro z hz
        rcases mem_insertDesc.mp hz with rfl | hz
        · omega
        · exact h.1 z hz
      · exact ih h.2

theorem pairwise_sortMatches (l : List VMatch) :
    List.Pairwise (fun a b => b.text.length ≤ a.text.length) (sortMatches l) := by
  induction l with
  | nil => simp [sortMatches]
  | cons y ys ih => exact pairwise_insertDesc ih

/-- C10: processTextNode leaves the node untouched — it returns none and
performs no replacement — when the node text is empty, and when a
non-empty match list has no matched substring occurring anywhere in the
text, in which case the split leaves the text in one piece. -/
theorem c10_no_mutation :
    (∀ validMatches : List VMatch, processTextNode (String.mk []) validMatches = none) ∧
    (∀ (text : String) (validMatches : List VMatch), validMatches ≠ [] →
      (∀ m ∈ validMatches, ¬ occursIn m.text.data text.data) →
      processTextNode text validMatches = none) := by
  constructor
  · intro validMatches
    rfl
  · intro text validMatches hne hno
    have hparts : splitKeepAux ((sortMatches validMatches).map (fun m => m.text.data))
        text.data.length text.data [] = [String.mk text.data] := by
      apply splitKeepAux_no_occur
      intro p hp
      obtain ⟨m, hm, rfl⟩ := List.mem_map.mp hp
      exact hno m (mem_sortMatches.mp hm)
    by_cases hte : text.isEmpty = true
    · simp [processTextNode, hte]
    · have hparts2 : splitKeepAux ((sortMatches validMatches).map (fun m => m.text.data))
          text.length text.data [] = [String.mk text.data] := hparts
      simp [processTextNode, hte, hparts2]

/-- Closed instance of c10_no_mutation: an empty text is untouched, and a
match list whose only substring does not occur in the text is a no-op. -/
theorem c10_no_mutation_witness :
    processTextNode (String.mk []) [] = none ∧
    ([⟨catStr, exEntry⟩] : List VMatch) ≠ [] ∧
    processTextNode helloStr [⟨catStr, exEntry⟩] = none := by
  have hno : ∀ m ∈ ([⟨catStr, exEntry⟩] : List VMatch),
      ¬ occursIn m.text.data helloStr.data := by
    intro m hm
    rcases List.mem_singleton.mp hm with rfl
    intro ho
    have hc : containsCh (VMatch.mk catStr exEntry).text.data helloStr.data = true :=
      containsCh_iff.mpr ho
    exact absurd hc (by decide)
  exact ⟨c10_no_mutation.1 [], by decide,
    c10_no_mutation.2 helloStr [⟨catStr, exEntry⟩] (by decide) hno⟩

/-- C9: annotating exText for the single match catStr yields exactly the
three children plain iLoveStr, the annotation span for catStr, and plain
veryMuchStr, in that order; whenever processTextNode replaces a node, the
concatenated text of the produced fragment equals the original node text,
so all text outside matches is preserved exactly and in order; and the
alternation is built from the matches sorted longest first. -/
theorem c9_annotation_structure :
    (∀ e : WordEntry, processTextNode exText [⟨catStr, e⟩] =
      some [FragChild.plain iLoveStr, FragChild.wordSpan catStr e,
        FragChild.plain veryMuchStr]) ∧
    (∀ (text : String) (validMatches : List VMatch) (frag : List FragChild),
      processTextNode text validMatches = some frag → fragJoin frag = text) ∧
    (∀ validMatches : List VMatch,
      List.Pairwise (fun a b => b.text.length ≤ a.text.length) (sortMatches validMatches)) := by
  refine ⟨?_, ?_, pairwise_sortMatches⟩
  · intro e
    have hne : (r"I love 猫 very much" : String).isEmpty = false := by decide
    simp [processTextNode, sortMatches, insertDesc, splitKeepAux, firstMatchAt, isPrefixCh,
      exText, List.find?, hne, catStr, iLoveStr, veryMuchStr]
  · intro text validMatches frag h
    simp only [processTextNode] at h
    split at h
    · simp at h
    · split at h
      · simp at h
      · rename_i hlen
        injection h with h2
        rw [← h2]
        unfold fragJoin
        rw [List.map_map]
        have hpt : ∀ part ∈ splitKeepAux ((sortMatches validMatches).map (fun m => m.text.data))
            text.data.length text.data [],
            ((fun c => (fragText c).data) ∘ fun part =>
              match (sortMatches validMatches).find? (fun m => m.text == part) with
              | some m => FragChild.wordSpan m.text m.entry
              | none => FragChild.plain part) part = part.data := by
          intro part hp
          simp only [Function.comp]
          cases hfind : (sortMatches validMatches).find? (fun m => m.text == part) with
          | none => rfl
          | some m =>
            have hbeq := List.find?_some hfind
            have hmt : m.text = part := by simpa using hbeq
            simp [fragText, hmt]
        rw [List.map_congr_left hpt]
        rw [splitKeepAux_join]
        rfl

/-- Closed instance of c9_annotation_structure on the concrete entry. -/
theorem c9_annotation_structure_witness :
    processTextNode exText [⟨catStr, exEntry⟩] = some exFrag ∧ fragJoin exFrag = exText := by
  have h1 := c9_annotation_structure.1 exEntry
  exact ⟨by rw [h1]; rfl, c9_annotation_structure.2.1 exText [⟨catStr, exEntry⟩] exFrag
    (by rw [h1]; rfl)⟩

mutual
theorem innerText_scanN (m : Bool) : ∀ n : DNode, innerTextN (scanN m n).1 = innerTextN n
  | .txt s => rfl
  | .elem d cs => by
    cases hf : filterRes m d (innerTextL cs) (hasBlockL cs) with
    | reject => simp [scanN, hf, innerTextN]
    | skip => simp [scanN, hf, innerTextN, innerText_scanL m cs]
    | accept =>
      by_cases hadd : addAccepts d.scanned (innerTextL cs) = true
      · simp [scanN, hf, hadd, innerTextN, innerText_scanL m cs]
      · simp [scanN, hf, hadd, innerTextN, innerText_scanL m cs]
theorem innerText_scanL (m : Bool) : ∀ l : DNodeList, innerTextL (scanL m l).1 = innerTextL l
  | .nil => rfl
  | .cons n ns => by
    simp [scanL, innerTextL, innerText_scanN m n, innerText_scanL m ns]
end

mutual
theorem hasBlock_scanN (m : Bool) : ∀ n : DNode, hasBlockN (scanN m n).1 = hasBlockN n
  | .txt s => rfl
  | .elem d cs => by
    cases hf : filterRes m d (innerTextL cs) (hasBlockL cs) with
    | reject => simp [scanN, hf, hasBlockN]
    | skip => simp [scanN, hf, hasBlockN, hasBlock_scanL m cs]
    | accept =>
      by_cases hadd : addAccepts d.scanned (innerTextL cs) = true
      · simp [scanN, hf, hadd, hasBlockN, markPending, hasBlock_scanL m cs]
      · simp [scanN, hf, hadd, hasBlockN, hasBlock_scanL m cs]
theorem hasBlock_scanL (m : Bool) : ∀ l : DNodeList, hasBlockL (scanL m l).1 = hasBlockL l
  | .nil => rfl
  | .cons n ns => by
    simp [scanL, hasBlockL, hasBlock_scanN m n, hasBlock_scanL m ns]
end

theorem filterRes_marked (m : Bool) (d : ElemData) (text : String) (hbd : Bool)
    (h : d.scanned.isSome = true) : filterRes m d text hbd = FilterRes.reject := by
  unfold filterRes
  split_ifs <;> simp_all

mutual
theorem scan_idem_N (m : Bool) : ∀ n : DNode, (scanN m (scanN m n).1).2 = 0
  | .txt s => rfl
  | .elem d cs => by
    cases hf : filterRes m d (innerTextL cs) (hasBlockL cs) with
    | reject => simp [scanN, hf]
    | skip =>
      have h1 : innerTextL (scanL m cs).1 = innerTextL cs := innerText_scanL m cs
      have h2 : hasBlockL (scanL m cs).1 = hasBlockL cs := hasBlock_scanL m cs
      simp [scanN, hf, h1, h2, scan_idem_L m cs]
    | accept =>
      have h1 : innerTextL (scanL m cs).1 = innerTextL cs := innerText_scanL m cs
      have h2 : hasBlockL (scanL m cs).1 = hasBlockL cs := hasBlock_scanL m cs
      by_cases hadd : addAccepts d.scanned (innerTextL cs) = true
      · have hm : filterRes m (markPending d) (innerTextL (scanL m cs).1)
            (hasBlockL (scanL m cs).1) = FilterRes.reject :=
          filterRes_marked m (markPending d) _ _ (by simp [markPending])
        simp [scanN, hf, hadd, hm]
      · simp [scanN, hf, hadd, h1, h2, scan_idem_L m cs]
theorem scan_idem_L (m : Bool) : ∀ l : DNodeList, (scanL m (scanL m l).1).2 = 0
  | .nil => rfl
  | .cons n ns => by
    simp [scanL, scan_idem_N m n, scan_idem_L m ns]
end

/-- C7: the accept branch of one scanner pass stores the pending mark on
the element at once; any element carrying the scan attribute is rejected
by the walker filter; and a second pass over the tree produced by a
first pass accepts zero new blocks. -/
theorem c7_scan_idempotent :
    (∀ (m : Bool) (d : ElemData) (cs : DNodeList),
      filterRes m d (innerTextL cs) (hasBlockL cs) = FilterRes.accept →
      addAccepts d.scanned (innerTextL cs) = true →
      (scanN m (.elem d cs)).1 = .elem (markPending d) (scanL m cs).1 ∧
        (markPending d).scanned = some pendingStr) ∧
    (∀ (m : Bool) (d : ElemData) (text : String) (hbd : Bool),
      d.scanned.isSome = true → filterRes m d text hbd = FilterRes.reject) ∧
    (∀ (m : Bool) (root : DNode),
      (scanAndTranslatePage m (scanAndTranslatePage m root).1).2 = 0) := by
  refine ⟨?_, filterRes_marked, ?_⟩
  · intro m d cs hf hadd
    constructor
    · simp [scanN, hf, hadd]
    · rfl
  · intro m root
    exact scan_idem_N m root

/-- Closed instance of c7_scan_idempotent: a marked paragraph is rejected
by the filter, the example root is idempotent under scanning, and the
accepted example paragraph is marked pending at once. -/
theorem c7_scan_idempotent_witness :
    filterRes false dMarked helloStr false = FilterRes.reject ∧
    (scanAndTranslatePage false (scanAndTranslatePage false exRoot).1).2 = 0 ∧
    (scanN false (DNode.elem pElem
        (DNodeList.cons (DNode.txt TranslationScheduler.nihaomaStr) DNodeList.nil))).1 =
      DNode.elem (markPending pElem)
        (scanL false (DNodeList.cons (DNode.txt TranslationScheduler.nihaomaStr)
          DNodeList.nil)).1 :=
  ⟨c7_scan_idempotent.2.1 false dMarked helloStr false (by decide),
   c7_scan_idempotent.2.2 false exRoot,
   (c7_scan_idempotent.1 false pElem
      (DNodeList.cons (DNode.txt TranslationScheduler.nihaomaStr) DNodeList.nil)
      (by decide) (by decide)).1⟩
